import Mathlib

/-!
Verification of the temporal predictive-coding solvers (`src/models.py`).

The three solvers (`KalmanFilter`, `NeuralKalmanFilter`, `TemporalPC`) are
shallowly embedded here.  Real-valued tensors are modelled as matrices over
`ℚ` (for the two Kalman-style solvers, so that everything evaluates on
concrete inputs) and over an arbitrary commutative ring (for `TemporalPC`,
instantiated at `ℝ` where the energy-descent property needs calculus).
Columns of a `[d, L]` tensor become entries of a list of `d × 1` matrices.
Python attribute mutation becomes explicit state passing, and code that can
raise (matrix inversion of a singular matrix, use of a still-`None`
attribute) returns `Option`.
-/

namespace Models

/-- Nonlinearity strategy object.  Modelled from the spec: the classes
`Linear` and `Tanh` come from `src/utils.py`, which is not part of the
sources; the spec describes them as an elementwise value function together
with the derivative of the transform evaluated at the pre-transform input. -/
structure NonlinStrategy (K : Type) where
  val : K → K
  deriv : K → K

/-- Modelled from the spec: the identity nonlinearity (`Linear` in
`src/utils.py`), value `x`, derivative `1` everywhere. -/
def LinearNL (K : Type) [One K] : NonlinStrategy K :=
  ⟨fun t => t, fun _ => 1⟩

/-- Modelled from the spec: the saturating odd nonlinearity (`Tanh` in
`src/utils.py`), value `tanh x`, derivative `1 − value²`. -/
noncomputable def TanhNL : NonlinStrategy ℝ :=
  ⟨Real.tanh, fun t => 1 - Real.tanh t ^ 2⟩

/-- Tags for the two recognized nonlinearities, the result of the string
dispatch in the constructors of `NeuralKalmanFilter` and `TemporalPC`. -/
inductive NonlinTag : Type
  | linear : NonlinTag
  | tanh : NonlinTag
deriving DecidableEq

/-- The string dispatch shared by both constructors
(`if nonlin == 'linear' ... elif nonlin == 'tanh' ... else raise ValueError`). -/
def mkNonlin (nonlin : String) : Except String NonlinTag :=
  if nonlin = "linear" then Except.ok NonlinTag.linear
  else if nonlin = "tanh" then Except.ok NonlinTag.tanh
  else Except.error "no such nonlinearity!"

/-- `torch.sign` on a rational scalar. -/
def signQ (q : ℚ) : ℚ :=
  if 0 < q then 1 else if q < 0 then -1 else 0

/-- `torch.linalg.inv`: fails (raises) on a singular matrix, otherwise
produces the inverse, here via the adjugate formula. -/
def minv {k : ℕ} (A : Matrix (Fin k) (Fin k) ℚ) :
    Option (Matrix (Fin k) (Fin k) ℚ) :=
  if A.det = 0 then none else some ((A.det)⁻¹ • A.adjugate)

/-- The matrix inverse as a total function (meaningful when `det ≠ 0`),
used to state the spec-side formulas that mention `(...)⁻¹`. -/
def minvTotal {k : ℕ} (A : Matrix (Fin k) (Fin k) ℚ) :
    Matrix (Fin k) (Fin k) ℚ :=
  (A.det)⁻¹ • A.adjugate

theorem minv_eq_some {k : ℕ} (A : Matrix (Fin k) (Fin k) ℚ) (h : A.det ≠ 0) :
    minv A = some (minvTotal A) := by
  simp [minv, minvTotal, h]

theorem minv_one {k : ℕ} : minv (1 : Matrix (Fin k) (Fin k) ℚ) = some 1 := by
  simp [minv, minvTotal, Matrix.det_one, Matrix.adjugate_one]

/-! ## KalmanFilter -/

/-- State of a `KalmanFilter` instance: the state-space parameters
`A, B, C, Q, R` and the run-state attributes `z, P, x, u` (`latent_size`
is the dimension parameter `n`; the `exs` attribute is returned alongside
the outputs by the embedding of `inference`). -/
structure KalmanFilter (n m p : ℕ) where
  A : Matrix (Fin n) (Fin n) ℚ
  B : Matrix (Fin n) (Fin m) ℚ
  C : Matrix (Fin p) (Fin n) ℚ
  Q : Matrix (Fin n) (Fin n) ℚ
  R : Matrix (Fin p) (Fin p) ℚ
  z : Matrix (Fin n) (Fin 1) ℚ
  P : Matrix (Fin n) (Fin n) ℚ
  x : Matrix (Fin p) (Fin 1) ℚ
  u : Matrix (Fin m) (Fin 1) ℚ

namespace KalmanFilter

variable {n m p : ℕ}

/-- `projection`: `z_proj = A·z + B·u`, `P_proj = A·P·Aᵗ + Q`. -/
def projection (s : KalmanFilter n m p) :
    Matrix (Fin n) (Fin 1) ℚ × Matrix (Fin n) (Fin n) ℚ :=
  (s.A * s.z + s.B * s.u, s.A * s.P * s.A.transpose + s.Q)

/-- `correction`: Kalman gain `K = P_proj·Cᵗ·(C·P_proj·Cᵗ + R)⁻¹`, then
`z = z_proj + K·(x − C·z_proj)` and `P = P_proj − K·C·P_proj`; fails when
the innovation covariance is singular. -/
def correction (s : KalmanFilter n m p) (z_proj : Matrix (Fin n) (Fin 1) ℚ)
    (P_proj : Matrix (Fin n) (Fin n) ℚ) : Option (KalmanFilter n m p) :=
  (minv (s.C * P_proj * s.C.transpose + s.R)).map fun innov_inv =>
    let K := P_proj * s.C.transpose * innov_inv
    { s with z := z_proj + K * (s.x - s.C * z_proj)
             P := P_proj - K * (s.C * P_proj) }

/-- One iteration of the timestep loop of `inference`: load the current
columns into `x`/`u`, project, correct, and emit the corrected `z`, the
pre-correction predicted observation `C·z_proj` and the prediction error. -/
def step (s : KalmanFilter n m p)
    (x : Matrix (Fin p) (Fin 1) ℚ) (u : Matrix (Fin m) (Fin 1) ℚ) :
    Option (KalmanFilter n m p × Matrix (Fin n) (Fin 1) ℚ ×
      Matrix (Fin p) (Fin 1) ℚ × Matrix (Fin p) (Fin 1) ℚ) :=
  let s1 : KalmanFilter n m p := { s with x := x, u := u }
  let zP := s1.projection
  (s1.correction zP.1 zP.2).map fun s2 =>
    (s2, s2.z, s1.C * zP.1, x - s1.C * zP.1)

/-- The timestep loop of `inference`, collecting the latent estimates, the
predicted observations and the prediction errors in timestep order. -/
def run (s : KalmanFilter n m p) :
    List (Matrix (Fin p) (Fin 1) ℚ × Matrix (Fin m) (Fin 1) ℚ) →
    Option (KalmanFilter n m p × List (Matrix (Fin n) (Fin 1) ℚ) ×
      List (Matrix (Fin p) (Fin 1) ℚ) × List (Matrix (Fin p) (Fin 1) ℚ))
  | [] => some (s, [], [], [])
  | xu :: rest =>
    (s.step xu.1 xu.2).bind fun r =>
      (run r.1 rest).map fun t =>
        (t.1, r.2.1 :: t.2.1, r.2.2.1 :: t.2.2.1, r.2.2.2 :: t.2.2.2)

/-- `inference(inputs, controls)`: reset `z` to zero and `P` to the
identity, then run the timestep loop; returns the final state, the latent
sequence `zs`, the predicted observations `pred_xs` and the retained
prediction errors `exs`. -/
def inference (s : KalmanFilter n m p)
    (inputs : List (Matrix (Fin p) (Fin 1) ℚ))
    (controls : List (Matrix (Fin m) (Fin 1) ℚ)) :
    Option (KalmanFilter n m p × List (Matrix (Fin n) (Fin 1) ℚ) ×
      List (Matrix (Fin p) (Fin 1) ℚ) × List (Matrix (Fin p) (Fin 1) ℚ)) :=
  run { s with z := 0, P := 1 } (inputs.zip controls)

/-- The per-timestep recursion of the spec, written from its words: project
`z_proj = A·z + B·u`, `P_proj = A·P·Aᵗ + Q`, form the gain
`K = P_proj·Cᵗ·(C·P_proj·Cᵗ + R)⁻¹`, correct `z = z_proj + K·(x − C·z_proj)`,
`P = P_proj − K·C·P_proj`, and collect the corrected `z` and the predicted
observation `C·z_proj` in timestep order. -/
def kfSpec (A : Matrix (Fin n) (Fin n) ℚ) (B : Matrix (Fin n) (Fin m) ℚ)
    (C : Matrix (Fin p) (Fin n) ℚ) (Q : Matrix (Fin n) (Fin n) ℚ)
    (R : Matrix (Fin p) (Fin p) ℚ) (z : Matrix (Fin n) (Fin 1) ℚ)
    (P : Matrix (Fin n) (Fin n) ℚ) :
    List (Matrix (Fin p) (Fin 1) ℚ × Matrix (Fin m) (Fin 1) ℚ) →
    List (Matrix (Fin n) (Fin 1) ℚ) × List (Matrix (Fin p) (Fin 1) ℚ)
  | [] => ([], [])
  | xu :: rest =>
    let z_proj := A * z + B * xu.2
    let P_proj := A * P * A.transpose + Q
    let K := P_proj * C.transpose * minvTotal (C * P_proj * C.transpose + R)
    let z' := z_proj + K * (xu.1 - C * z_proj)
    let P' := P_proj - K * (C * P_proj)
    let t := kfSpec A B C Q R z' P' rest
    (z' :: t.1, (C * z_proj) :: t.2)

theorem minv_eq_some_iff {k : ℕ} {A v : Matrix (Fin k) (Fin k) ℚ} :
    minv A = some v ↔ A.det ≠ 0 ∧ v = minvTotal A := by
  unfold minv minvTotal
  by_cases h : A.det = 0 <;> simp [h, eq_comm]

theorem run_spec {s : KalmanFilter n m p}
    {l : List (Matrix (Fin p) (Fin 1) ℚ × Matrix (Fin m) (Fin 1) ℚ)}
    {s' : KalmanFilter n m p} {zs pxs exs} :
    run s l = some (s', zs, pxs, exs) →
    (zs, pxs) = kfSpec s.A s.B s.C s.Q s.R s.z s.P l := by
  induction l generalizing s s' zs pxs exs with
  | nil =>
    intro h
    simp only [run, Option.some.injEq, Prod.mk.injEq] at h
    simp [kfSpec, ← h.2.1, ← h.2.2.1]
  | cons xu rest ih =>
    intro h
    simp only [run, step, projection, correction] at h
    cases hinv : minv (s.C * (s.A * s.P * s.A.transpose + s.Q) * s.C.transpose + s.R) with
    | none =>
      rw [hinv] at h
      simp at h
    | some innov_inv =>
      obtain ⟨-, hval⟩ := minv_eq_some_iff.mp hinv
      rw [hinv] at h
      simp only [Option.map_some', Option.some_bind] at h
      obtain ⟨t, ht, hout⟩ := Option.map_eq_some'.mp h
      obtain ⟨t1, tzs, tpxs, texs⟩ := t
      simp only [Prod.mk.injEq] at hout
      have hrec := ih ht
      subst hval
      simp only [kfSpec, ← hrec, ← hout.2.1, ← hout.2.2.1]

/-- Claim C2: `KalmanFilter.inference` resets `z` to zero and `P` to the
identity and then, per timestep, computes the projection
`z_proj = A·z + B·u`, `P_proj = A·P·Aᵗ + Q` and the correction
`K = P_proj·Cᵗ·(C·P_proj·Cᵗ + R)⁻¹`, `z = z_proj + K·(x − C·z_proj)`,
`P = P_proj − K·C·P_proj`; whenever the call completes, the returned
sequences are the corrected `z` values and the pre-correction predicted
observations `C·z_proj`, in timestep order. -/
theorem kalman_inference_spec {s : KalmanFilter n m p}
    {inputs : List (Matrix (Fin p) (Fin 1) ℚ)}
    {controls : List (Matrix (Fin m) (Fin 1) ℚ)}
    {s' : KalmanFilter n m p} {zs pxs exs} :
    s.inference inputs controls = some (s', zs, pxs, exs) →
    (zs, pxs) = kfSpec s.A s.B s.C s.Q s.R 0 1 (inputs.zip controls) := by
  intro h
  exact run_spec h

theorem step_eq_none_of_det_eq_zero {s : KalmanFilter n m p}
    (x : Matrix (Fin p) (Fin 1) ℚ) (u : Matrix (Fin m) (Fin 1) ℚ)
    (h : (s.C * (s.A * s.P * s.A.transpose + s.Q) * s.C.transpose + s.R).det = 0) :
    s.step x u = none := by
  simp [step, projection, correction, minv, h]

theorem run_eq_none_of_failing_step {s s1 : KalmanFilter n m p}
    {l1 l2 : List (Matrix (Fin p) (Fin 1) ℚ × Matrix (Fin m) (Fin 1) ℚ)}
    {xu : Matrix (Fin p) (Fin 1) ℚ × Matrix (Fin m) (Fin 1) ℚ} {zs pxs exs} :
    run s l1 = some (s1, zs, pxs, exs) → s1.step xu.1 xu.2 = none →
    run s (l1 ++ xu :: l2) = none := by
  induction l1 generalizing s zs pxs exs with
  | nil =>
    intro h hstep
    simp only [run, Option.some.injEq, Prod.mk.injEq] at h
    rw [List.nil_append, run, h.1, hstep]
    rfl
  | cons yu rest ih =>
    intro h hstep
    rw [run] at h
    cases hr : s.step yu.1 yu.2 with
    | none =>
      rw [hr] at h
      simp only [Option.none_bind] at h
      exact Option.noConfusion h
    | some r =>
      rw [hr] at h
      simp only [Option.some_bind] at h
      obtain ⟨t, ht, hout⟩ := Option.map_eq_some'.mp h
      obtain ⟨t1, tzs, tpxs, texs⟩ := t
      simp only [Prod.mk.injEq] at hout
      rw [List.cons_append, run, hr, Option.some_bind]
      rw [hout.1] at ht
      rw [ih ht hstep]
      rfl

/-- Claim C8: if the innovation covariance `C·P_proj·Cᵗ + R` encountered at
some timestep `t` of `KalmanFilter.inference` is singular, the whole call
fails (`none`): no regularization or retry happens and the sequence pass
does not complete. -/
theorem kalman_inference_fails_on_singular_innovation
    {s : KalmanFilter n m p} {inputs : List (Matrix (Fin p) (Fin 1) ℚ)}
    {controls : List (Matrix (Fin m) (Fin 1) ℚ)} {t : ℕ}
    {s1 : KalmanFilter n m p} {zs pxs exs}
    (hrun : run { s with z := 0, P := 1 } ((inputs.zip controls).take t) =
      some (s1, zs, pxs, exs))
    (ht : t < (inputs.zip controls).length)
    (hsing : (s1.C * (s1.A * s1.P * s1.A.transpose + s1.Q) * s1.C.transpose +
      s1.R).det = 0) :
    s.inference inputs controls = none := by
  unfold inference
  have hsplit : inputs.zip controls =
      (inputs.zip controls).take t ++
        ((inputs.zip controls).get ⟨t, ht⟩ :: (inputs.zip controls).drop (t + 1)) := by
    rw [← List.drop_eq_get_cons, List.take_append_drop]
  rw [hsplit]
  exact run_eq_none_of_failing_step hrun
    (step_eq_none_of_det_eq_zero _ _ hsing)

/-- Witness for claim C2 on a concrete one-dimensional, one-step run
(`A = B = C = Q = 0`, `R = 1`). -/
theorem kalman_inference_spec_witness :
    (([0], [0]) :
      List (Matrix (Fin 1) (Fin 1) ℚ) × List (Matrix (Fin 1) (Fin 1) ℚ)) =
    kfSpec (0 : Matrix (Fin 1) (Fin 1) ℚ) 0 0 0 1 0 1
      ([(0 : Matrix (Fin 1) (Fin 1) ℚ)].zip [(0 : Matrix (Fin 1) (Fin 1) ℚ)]) :=
  @kalman_inference_spec 1 1 1
    (KalmanFilter.mk 0 0 0 0 1 0 0 0 0) [0] [0]
    (KalmanFilter.mk 0 0 0 0 1 0 0 0 0) [0] [0] [0] (by
      simp [inference, run, step, projection, correction, minv_one,
        Matrix.zero_mul, Matrix.mul_zero, Matrix.transpose_zero])

/-- Witness for claim C8 on a concrete one-dimensional, one-step run with
`C = 0`, `R = 0`, whose innovation covariance is the zero matrix. -/
theorem kalman_singular_innovation_witness :
    KalmanFilter.inference (KalmanFilter.mk 0 0 0 0 0 0 0 0 0 : KalmanFilter 1 1 1)
      [(0 : Matrix (Fin 1) (Fin 1) ℚ)] [(0 : Matrix (Fin 1) (Fin 1) ℚ)] = none :=
  @kalman_inference_fails_on_singular_innovation 1 1 1
    (KalmanFilter.mk 0 0 0 0 0 0 0 0 0) [0] [0] 0
    { KalmanFilter.mk (0 : Matrix (Fin 1) (Fin 1) ℚ) 0 0 0 0 0 0 0 0 with
      z := 0, P := 1 } [] [] []
    (rfl)
    (by decide)
    (by simp [Matrix.zero_mul, Matrix.mul_zero, Matrix.transpose_zero])

end KalmanFilter

/-! ## NeuralKalmanFilter (temporal predictive coding, local learning) -/

/-- State of a `NeuralKalmanFilter` instance: weight matrices
`Wr, Win, Wout` (initialized from `A, B, C`), the `dynamic_inf` flag, the
nonlinearity strategy, and the run-state attributes.  `ez`, `pred_x` and
`ex` start as `None` (here `none`) and are first assigned inside
`update_nodes`; `x`, `u`, `prev_z` and `z` are always assigned by the entry
points before being read, so they are carried as plain matrices. -/
structure NeuralKalmanFilter (n m p : ℕ) where
  Wr : Matrix (Fin n) (Fin n) ℚ
  Win : Matrix (Fin n) (Fin m) ℚ
  Wout : Matrix (Fin p) (Fin n) ℚ
  dynamic_inf : Bool
  nonlin : NonlinStrategy ℚ
  ez : Option (Matrix (Fin n) (Fin 1) ℚ)
  pred_x : Option (Matrix (Fin p) (Fin 1) ℚ)
  ex : Option (Matrix (Fin p) (Fin 1) ℚ)
  x : Matrix (Fin p) (Fin 1) ℚ
  u : Matrix (Fin m) (Fin 1) ℚ
  prev_z : Matrix (Fin n) (Fin 1) ℚ
  z : Matrix (Fin n) (Fin 1) ℚ

namespace NeuralKalmanFilter

variable {n m p : ℕ}

/-- `update_nodes(inf_lr)`: one inner inference iteration.  `ez` is the
latent-level prediction error (from the current `z` under `dynamic_inf`,
otherwise from `prev_z`), `ex` the observation-level error, and `z` moves
against `delta_z = ez − nonlin'(z) ⊙ (Woutᵗ·ex) + 0·sign(z)`. -/
def update_nodes (s : NeuralKalmanFilter n m p) (inf_lr : ℚ) :
    NeuralKalmanFilter n m p :=
  let ez := if s.dynamic_inf then
      s.z - s.Wr * s.z.map s.nonlin.val - s.Win * s.u.map s.nonlin.val
    else
      s.z - s.Wr * s.prev_z.map s.nonlin.val - s.Win * s.u.map s.nonlin.val
  let pred_x := s.Wout * s.z.map s.nonlin.val
  let ex := s.x - pred_x
  let delta_z := ez - Matrix.hadamard (s.z.map s.nonlin.deriv)
      (s.Wout.transpose * ex) + (0 : ℚ) • s.z.map signQ
  { s with ez := some ez, pred_x := some pred_x, ex := some ex,
           z := s.z - inf_lr • delta_z }

/-- `update_transition(learn_lr)`: `Wr ← Wr + learn_lr·ez·nonlin(prev_z)ᵗ`.
Reading the `ez` attribute fails when no inner iteration has ever set it
(`self.ez` is still `None`). -/
def update_transition (s : NeuralKalmanFilter n m p) (learn_lr : ℚ) :
    Option (NeuralKalmanFilter n m p) :=
  s.ez.map fun ez =>
    { s with Wr := s.Wr + learn_lr • (ez * (s.prev_z.map s.nonlin.val).transpose) }

/-- `update_emission(learn_lr)`: `Wout ← Wout + learn_lr·ex·nonlin(z)ᵗ`,
failing likewise when `ex` was never set. -/
def update_emission (s : NeuralKalmanFilter n m p) (learn_lr : ℚ) :
    Option (NeuralKalmanFilter n m p) :=
  s.ex.map fun ex =>
    { s with Wout := s.Wout + learn_lr • (ex * (s.z.map s.nonlin.val).transpose) }

/-- The start of each timestep, common to `predict` and `train`: load the
current observation and control columns and snapshot `prev_z = z.clone()`. -/
def beginStep (s : NeuralKalmanFilter n m p)
    (x : Matrix (Fin p) (Fin 1) ℚ) (u : Matrix (Fin m) (Fin 1) ℚ) :
    NeuralKalmanFilter n m p :=
  { s with x := x, u := u, prev_z := s.z }

/-- One timestep of `predict`: snapshot, record the projected latent
`Wr·nonlin(z) + Win·nonlin(u)`, then either the closed-form linear
equilibrium (`inf_iters == 0`) or `inf_iters` iterations of `update_nodes`. -/
def predictStep (s : NeuralKalmanFilter n m p)
    (x : Matrix (Fin p) (Fin 1) ℚ) (u : Matrix (Fin m) (Fin 1) ℚ)
    (inf_iters : ℕ) (inf_lr : ℚ) :
    Option (NeuralKalmanFilter n m p × Matrix (Fin n) (Fin 1) ℚ) :=
  let s1 := s.beginStep x u
  let z_proj := s1.Wr * s1.z.map s1.nonlin.val + s1.Win * s1.u.map s1.nonlin.val
  if inf_iters = 0 then
    (minv (1 + s1.Wout.transpose * s1.Wout)).map fun temp1 =>
      ({ s1 with z := temp1 *
        (s1.Wout.transpose * s1.x + s1.Wr * s1.prev_z + s1.Win * s1.u) }, z_proj)
  else
    some ((fun t => t.update_nodes inf_lr)^[inf_iters] s1, z_proj)

/-- The timestep loop of `predict`, collecting the inferred latents and the
projected latents in timestep order. -/
def predictRun (s : NeuralKalmanFilter n m p)
    (inf_iters : ℕ) (inf_lr : ℚ) :
    List (Matrix (Fin p) (Fin 1) ℚ × Matrix (Fin m) (Fin 1) ℚ) →
    Option (NeuralKalmanFilter n m p × List (Matrix (Fin n) (Fin 1) ℚ) ×
      List (Matrix (Fin n) (Fin 1) ℚ))
  | [] => some (s, [], [])
  | xu :: rest =>
    (s.predictStep xu.1 xu.2 inf_iters inf_lr).bind fun r =>
      (predictRun r.1 inf_iters inf_lr rest).map fun t =>
        (t.1, r.1.z :: t.2.1, r.2 :: t.2.2)

/-- `predict(inputs, controls, inf_iters, inf_lr)`: zero-initialize `z`,
run the timestep loop, and return the latent sequence, the predicted
observations `Wout·nonlin(z_proj)` and the final state. -/
def predict (s : NeuralKalmanFilter n m p)
    (inputs : List (Matrix (Fin p) (Fin 1) ℚ))
    (controls : List (Matrix (Fin m) (Fin 1) ℚ))
    (inf_iters : ℕ) (inf_lr : ℚ) :
    Option (List (Matrix (Fin n) (Fin 1) ℚ) ×
      List (Matrix (Fin p) (Fin 1) ℚ) × NeuralKalmanFilter n m p) :=
  (predictRun { s with z := 0 } inf_iters inf_lr (inputs.zip controls)).map
    fun t => (t.2.1, t.2.2.map fun zp => t.1.Wout * zp.map t.1.nonlin.val, t.1)

/-- One timestep of `train`: snapshot, `inf_iters` iterations of
`update_nodes`, then `update_transition` and `update_emission`. -/
def trainStep (s : NeuralKalmanFilter n m p)
    (x : Matrix (Fin p) (Fin 1) ℚ) (u : Matrix (Fin m) (Fin 1) ℚ)
    (inf_iters : ℕ) (inf_lr learn_lr : ℚ) :
    Option (NeuralKalmanFilter n m p) :=
  let s1 := (fun t => t.update_nodes inf_lr)^[inf_iters] (s.beginStep x u)
  (s1.update_transition learn_lr).bind fun s2 => s2.update_emission learn_lr

/-- The timestep loop of one learning pass of `train`. -/
def trainPassLoop (s : NeuralKalmanFilter n m p)
    (inf_iters : ℕ) (inf_lr learn_lr : ℚ) :
    List (Matrix (Fin p) (Fin 1) ℚ × Matrix (Fin m) (Fin 1) ℚ) →
    Option (NeuralKalmanFilter n m p)
  | [] => some s
  | xu :: rest =>
    (s.trainStep xu.1 xu.2 inf_iters inf_lr learn_lr).bind fun s2 =>
      trainPassLoop s2 inf_iters inf_lr learn_lr rest

/-- The epoch loop of `train`: each of the `learn_iters` passes
re-initializes `z` to zero and walks the whole sequence. -/
def trainEpochs (s : NeuralKalmanFilter n m p)
    (l : List (Matrix (Fin p) (Fin 1) ℚ × Matrix (Fin m) (Fin 1) ℚ))
    (inf_iters : ℕ) (inf_lr learn_lr : ℚ) :
    ℕ → Option (NeuralKalmanFilter n m p)
  | 0 => some s
  | Nat.succ k =>
    (trainPassLoop { s with z := 0 } inf_iters inf_lr learn_lr l).bind fun s2 =>
      trainEpochs s2 l inf_iters inf_lr learn_lr k

/-- `train(inputs, controls, inf_iters, inf_lr, learn_iters, learn_lr)`:
`learn_iters` passes over the sequence, inference then the two local weight
updates at every timestep; only the final mutated state is produced. -/
def train (s : NeuralKalmanFilter n m p)
    (inputs : List (Matrix (Fin p) (Fin 1) ℚ))
    (controls : List (Matrix (Fin m) (Fin 1) ℚ))
    (inf_iters : ℕ) (inf_lr : ℚ) (learn_iters : ℕ) (learn_lr : ℚ) :
    Option (NeuralKalmanFilter n m p) :=
  trainEpochs s (inputs.zip controls) inf_iters inf_lr learn_lr learn_iters

/-- A concrete one-dimensional all-zero model with the linear
nonlinearity, used to instantiate theorems on concrete inputs. -/
def zeroNKF : NeuralKalmanFilter 1 1 1 :=
  ⟨0, 0, 0, false, LinearNL ℚ, none, none, none, 0, 0, 0, 0⟩

/-- `zeroNKF` after one inner inference iteration on zero data: the error
attributes are now set (to zero). -/
def zeroNKFErrs : NeuralKalmanFilter 1 1 1 :=
  ⟨0, 0, 0, false, LinearNL ℚ, some 0, some 0, some 0, 0, 0, 0, 0⟩

theorem update_nodes_prev_z (s : NeuralKalmanFilter n m p) (inf_lr : ℚ) :
    (s.update_nodes inf_lr).prev_z = s.prev_z := rfl

theorem iterate_update_nodes_prev_z (inf_lr : ℚ) (k : ℕ)
    (s : NeuralKalmanFilter n m p) :
    ((fun t => t.update_nodes inf_lr)^[k] s).prev_z = s.prev_z := by
  induction k generalizing s with
  | zero => rfl
  | succ j ih => rw [Function.iterate_succ_apply, ih, update_nodes_prev_z]

/-- Claim C3: within a timestep of `predict` or `train`, `prev_z` always
holds the latent estimate from the end of the previous timestep (the `z`
the timestep started with, which is the zero initialization at the first
timestep): after any `k ≤ inf_iters` inner iterations `prev_z` is still the
snapshot taken by `beginStep`, and the state coming out of a whole
`predict` timestep (either branch) or `train` timestep keeps that value. -/
theorem prev_z_reflects_previous_timestep :
    (∀ (s : NeuralKalmanFilter n m p) x u (inf_lr : ℚ) (k inf_iters : ℕ),
      k ≤ inf_iters →
      ((fun t => t.update_nodes inf_lr)^[k] (s.beginStep x u)).prev_z = s.z) ∧
    (∀ (s : NeuralKalmanFilter n m p) x u inf_iters inf_lr s' zp,
      s.predictStep x u inf_iters inf_lr = some (s', zp) → s'.prev_z = s.z) ∧
    (∀ (s : NeuralKalmanFilter n m p) x u inf_iters inf_lr learn_lr s',
      s.trainStep x u inf_iters inf_lr learn_lr = some s' → s'.prev_z = s.z) := by
  have hbegin : ∀ (s : NeuralKalmanFilter n m p) x u,
      (s.beginStep x u).prev_z = s.z := fun _ _ _ => rfl
  refine ⟨?_, ?_, ?_⟩
  · intro s x u inf_lr k inf_iters _
    rw [iterate_update_nodes_prev_z, hbegin]
  · intro s x u inf_iters inf_lr s' zp h
    rcases Nat.eq_zero_or_pos inf_iters with h0 | hpos
    · subst h0
      simp only [predictStep, if_pos] at h
      obtain ⟨v, -, hv⟩ := Option.map_eq_some'.mp h
      have := congrArg Prod.fst hv
      simp only at this
      rw [← this]
      exact hbegin s x u
    · simp only [predictStep, if_neg (Nat.pos_iff_ne_zero.mp hpos),
        Option.some.injEq, Prod.mk.injEq] at h
      rw [← h.1, iterate_update_nodes_prev_z, hbegin]
  · intro s x u inf_iters inf_lr learn_lr s' h
    rw [trainStep] at h
    cases hez : ((fun t => t.update_nodes inf_lr)^[inf_iters]
        (s.beginStep x u)).ez with
    | none =>
      rw [update_transition, hez] at h
      exact Option.noConfusion h
    | some ezv =>
      rw [update_transition, hez] at h
      simp only [Option.map_some', Option.some_bind] at h
      cases hex : ((fun t => t.update_nodes inf_lr)^[inf_iters]
          (s.beginStep x u)).ex with
      | none =>
        rw [update_emission] at h
        simp only [hex] at h
        exact Option.noConfusion h
      | some exv =>
        rw [update_emission] at h
        simp only [hex, Option.map_some', Option.some.injEq] at h
        rw [← h]
        rw [iterate_update_nodes_prev_z, hbegin]

/-- Witness for claim C3, instantiating all three conjuncts on a concrete
one-dimensional zero model with one inner iteration. -/
theorem prev_z_reflects_previous_timestep_witness :
    (((fun t => NeuralKalmanFilter.update_nodes t 1)^[1]
      (zeroNKF.beginStep 0 0)).prev_z = zeroNKF.z) ∧
    zeroNKFErrs.prev_z = zeroNKF.z := by
  constructor
  · exact prev_z_reflects_previous_timestep.1 zeroNKF 0 0 1 1 1 (Nat.le_refl 1)
  · exact prev_z_reflects_previous_timestep.2.2 zeroNKF 0 0 1 1 1
      zeroNKFErrs (by
        simp [trainStep, update_transition, update_emission, update_nodes,
          beginStep, zeroNKF, zeroNKFErrs, LinearNL, Matrix.zero_mul,
          Matrix.mul_zero, Matrix.transpose_zero, Matrix.hadamard_zero])

/-- Counterexample to claim C1 as stated: `train` has no closed-form path.
On a concrete one-dimensional model, a call to `train` with
`inf_iters = 0` does not set the latent to the closed-form equilibrium —
it fails outright (`none`), because with no inner iteration the error
attributes are still unset (`None`) when `update_transition` reads them. -/
theorem train_inf_iters_zero_counterexample :
    zeroNKF.train [0] [0] 0 1 1 1 = none := rfl

/-- Claim C1 (amended): in `predict`, a timestep with `inf_iters = 0` runs
no inner inference iteration and sets the latent to the closed-form linear
equilibrium `z = (I + Woutᵗ·Wout)⁻¹·(Woutᵗ·x + Wr·prev_z + Win·u)` (here
`s.z` is `prev_z`, the latent at the end of the previous timestep).
`train` has no such path: with `inf_iters = 0` its inner loop simply runs
zero iterations and the subsequent weight updates fail on the unset error
attributes. -/
theorem predict_inf_iters_zero_closed_form (s : NeuralKalmanFilter n m p)
    (x : Matrix (Fin p) (Fin 1) ℚ) (u : Matrix (Fin m) (Fin 1) ℚ)
    (inf_lr : ℚ) (s' : NeuralKalmanFilter n m p) (zp : Matrix (Fin n) (Fin 1) ℚ)
    (h : s.predictStep x u 0 inf_lr = some (s', zp)) :
    s'.z = minvTotal (1 + s.Wout.transpose * s.Wout) *
      (s.Wout.transpose * x + s.Wr * s.z + s.Win * u) := by
  simp only [predictStep, if_pos] at h
  obtain ⟨v, hv, heq⟩ := Option.map_eq_some'.mp h
  obtain ⟨-, hval⟩ := KalmanFilter.minv_eq_some_iff.mp hv
  subst hval
  have hz := congrArg Prod.fst heq
  simp only at hz
  rw [← hz]
  rfl

/-- Witness for the amended claim C1 on the concrete all-zero model. -/
theorem predict_inf_iters_zero_closed_form_witness :
    zeroNKF.z = minvTotal (1 + zeroNKF.Wout.transpose * zeroNKF.Wout) *
      (zeroNKF.Wout.transpose * 0 + zeroNKF.Wr * zeroNKF.z + zeroNKF.Win * 0) :=
  predict_inf_iters_zero_closed_form zeroNKF 0 0 1 zeroNKF 0 (by
    simp [predictStep, beginStep, minv_one, zeroNKF, Matrix.transpose_zero,
      Matrix.zero_mul, Matrix.mul_zero, Matrix.one_mul])

/-- Claim C4: each `train` timestep, after the inner inference loop (at
least one iteration, so that the error attributes are set), applies exactly
the two rank-one outer-product updates
`Wr ← Wr + learn_lr·ez·nonlin(prev_z)ᵗ` and
`Wout ← Wout + learn_lr·ex·nonlin(z)ᵗ`, where `ez`/`ex` are the stored
latent-level and observation-level prediction errors; nothing else in the
state changes (in particular `Win` is untouched). -/
theorem train_step_rank_one_updates (s : NeuralKalmanFilter n m p)
    (x : Matrix (Fin p) (Fin 1) ℚ) (u : Matrix (Fin m) (Fin 1) ℚ)
    (inf_iters : ℕ) (inf_lr learn_lr : ℚ) (s1 : NeuralKalmanFilter n m p)
    (hiters : 1 ≤ inf_iters)
    (hs1 : s1 = (fun t => t.update_nodes inf_lr)^[inf_iters] (s.beginStep x u)) :
    ∃ ezv exv, s1.ez = some ezv ∧ s1.ex = some exv ∧
      s.trainStep x u inf_iters inf_lr learn_lr = some
        { s1 with
          Wr := s1.Wr + learn_lr • (ezv * (s1.prev_z.map s1.nonlin.val).transpose),
          Wout := s1.Wout + learn_lr • (exv * (s1.z.map s1.nonlin.val).transpose) } := by
  obtain ⟨j, rfl⟩ : ∃ j, inf_iters = j + 1 :=
    ⟨inf_iters - 1, (Nat.succ_pred_eq_of_pos hiters).symm⟩
  subst hs1
  rw [Function.iterate_succ_apply']
  refine ⟨_, _, rfl, rfl, ?_⟩
  rw [trainStep, Function.iterate_succ_apply']
  rfl

/-- Witness for claim C4 on the concrete all-zero model with one inner
iteration. -/
theorem train_step_rank_one_updates_witness :
    ∃ ezv exv, zeroNKFErrs.ez = some ezv ∧ zeroNKFErrs.ex = some exv ∧
      zeroNKF.trainStep 0 0 1 1 1 = some
        { zeroNKFErrs with
          Wr := zeroNKFErrs.Wr +
            (1 : ℚ) • (ezv * (zeroNKFErrs.prev_z.map zeroNKFErrs.nonlin.val).transpose),
          Wout := zeroNKFErrs.Wout +
            (1 : ℚ) • (exv * (zeroNKFErrs.z.map zeroNKFErrs.nonlin.val).transpose) } :=
  train_step_rank_one_updates zeroNKF 0 0 1 1 1 zeroNKFErrs (Nat.le_refl 1) (by
    simp [update_nodes, beginStep, zeroNKF, zeroNKFErrs, LinearNL,
      Matrix.zero_mul, Matrix.mul_zero, Matrix.transpose_zero,
      Matrix.hadamard_zero])

theorem update_nodes_weights (s : NeuralKalmanFilter n m p) (inf_lr : ℚ) :
    (s.update_nodes inf_lr).Wr = s.Wr ∧ (s.update_nodes inf_lr).Win = s.Win ∧
    (s.update_nodes inf_lr).Wout = s.Wout := ⟨rfl, rfl, rfl⟩

theorem iterate_update_nodes_weights (inf_lr : ℚ) (k : ℕ)
    (s : NeuralKalmanFilter n m p) :
    ((fun t => t.update_nodes inf_lr)^[k] s).Wr = s.Wr ∧
    ((fun t => t.update_nodes inf_lr)^[k] s).Win = s.Win ∧
    ((fun t => t.update_nodes inf_lr)^[k] s).Wout = s.Wout := by
  induction k generalizing s with
  | zero => exact ⟨rfl, rfl, rfl⟩
  | succ j ih =>
    rw [Function.iterate_succ_apply]
    exact ih (s.update_nodes inf_lr)

theorem predictStep_weights {s : NeuralKalmanFilter n m p} {x u inf_iters inf_lr s' zp}
    (h : s.predictStep x u inf_iters inf_lr = some (s', zp)) :
    s'.Wr = s.Wr ∧ s'.Win = s.Win ∧ s'.Wout = s.Wout := by
  rcases Nat.eq_zero_or_pos inf_iters with h0 | hpos
  · subst h0
    simp only [predictStep, if_pos] at h
    obtain ⟨v, -, hv⟩ := Option.map_eq_some'.mp h
    have := congrArg Prod.fst hv
    simp only at this
    rw [← this]
    exact ⟨rfl, rfl, rfl⟩
  · simp only [predictStep, if_neg (Nat.pos_iff_ne_zero.mp hpos),
      Option.some.injEq, Prod.mk.injEq] at h
    rw [← h.1]
    exact iterate_update_nodes_weights inf_lr inf_iters (s.beginStep x u)

theorem predictRun_weights {s : NeuralKalmanFilter n m p} {inf_iters inf_lr}
    {l : List (Matrix (Fin p) (Fin 1) ℚ × Matrix (Fin m) (Fin 1) ℚ)}
    {s' : NeuralKalmanFilter n m p} {zs zps}
    (h : predictRun s inf_iters inf_lr l = some (s', zs, zps)) :
    s'.Wr = s.Wr ∧ s'.Win = s.Win ∧ s'.Wout = s.Wout := by
  induction l generalizing s s' zs zps with
  | nil =>
    simp only [predictRun, Option.some.injEq, Prod.mk.injEq] at h
    rw [← h.1]
    exact ⟨rfl, rfl, rfl⟩
  | cons xu rest ih =>
    rw [predictRun] at h
    cases hstep : s.predictStep xu.1 xu.2 inf_iters inf_lr with
    | none =>
      rw [hstep] at h
      exact Option.noConfusion h
    | some r =>
      rw [hstep] at h
      simp only [Option.some_bind] at h
      obtain ⟨t, ht, hout⟩ := Option.map_eq_some'.mp h
      obtain ⟨t1, tzs, tzps⟩ := t
      simp only [Prod.mk.injEq] at hout
      rw [hout.1] at ht
      obtain ⟨w1, w2, w3⟩ := ih ht
      obtain ⟨v1, v2, v3⟩ := predictStep_weights hstep
      exact ⟨w1.trans v1, w2.trans v2, w3.trans v3⟩

/-- Claim C6: `predict` never modifies the weight matrices — whenever a
call completes, `Wr`, `Win` and `Wout` in the resulting state equal their
values before the call, for every input/control sequence, `inf_iters` and
`inf_lr`. -/
theorem predict_preserves_weights {s : NeuralKalmanFilter n m p}
    {inputs : List (Matrix (Fin p) (Fin 1) ℚ)}
    {controls : List (Matrix (Fin m) (Fin 1) ℚ)} {inf_iters : ℕ} {inf_lr : ℚ}
    {zs : List (Matrix (Fin n) (Fin 1) ℚ)}
    {pxs : List (Matrix (Fin p) (Fin 1) ℚ)} {s' : NeuralKalmanFilter n m p}
    (h : s.predict inputs controls inf_iters inf_lr = some (zs, pxs, s')) :
    s'.Wr = s.Wr ∧ s'.Win = s.Win ∧ s'.Wout = s.Wout := by
  rw [predict] at h
  obtain ⟨t, ht, hout⟩ := Option.map_eq_some'.mp h
  obtain ⟨t1, tzs, tzps⟩ := t
  simp only [Prod.mk.injEq] at hout
  rw [← hout.2.2]
  obtain ⟨w1, w2, w3⟩ := predictRun_weights ht
  exact ⟨w1, w2, w3⟩

/-- Witness for claim C6 on the concrete all-zero model. -/
theorem predict_preserves_weights_witness :
    zeroNKFErrs.Wr = zeroNKF.Wr ∧ zeroNKFErrs.Win = zeroNKF.Win ∧
    zeroNKFErrs.Wout = zeroNKF.Wout :=
  @predict_preserves_weights 1 1 1 zeroNKF [0] [0] 1 1 [0] [0] zeroNKFErrs (by
      simp [predict, predictRun, predictStep, beginStep, update_nodes,
        zeroNKF, zeroNKFErrs, LinearNL, Matrix.zero_mul, Matrix.mul_zero,
        Matrix.transpose_zero, Matrix.hadamard_zero])

end NeuralKalmanFilter

/-! ## TemporalPC (differentiable solver) -/

/-- State of a `TemporalPC` instance: the three learnable linear maps
(`nn.Linear` weights, no bias), the nonlinearity, the loss attributes (both
`None` until `update_grads` runs) and the current latent `z`.  The solver
works on row vectors (`batch × features` in the code); here a single
vector per call.  The scalar type is a parameter so that the same
embedding serves both the executable (`ℚ`) and analytic (`ℝ`) instances. -/
structure TemporalPC (nc nh no : ℕ) (K : Type) where
  Win : Matrix (Fin nh) (Fin nc) K
  Wr : Matrix (Fin nh) (Fin nh) K
  Wout : Matrix (Fin no) (Fin nh) K
  nonlin : NonlinStrategy K
  hidden_loss : Option K
  obs_loss : Option K
  z : Fin nh → K

namespace TemporalPC

variable {nc nh no : ℕ} {K : Type} [CommRing K]

/-- `forward(u, prev_z)`: `pred_z = Win·nonlin(u) + Wr·nonlin(prev_z)`,
`pred_x = Wout·nonlin(pred_z)`. -/
def forward (s : TemporalPC nc nh no K) (u : Fin nc → K) (prev_z : Fin nh → K) :
    (Fin nh → K) × (Fin no → K) :=
  let pred_z := s.Win.mulVec (fun i => s.nonlin.val (u i)) +
    s.Wr.mulVec (fun i => s.nonlin.val (prev_z i))
  (pred_z, s.Wout.mulVec fun i => s.nonlin.val (pred_z i))

/-- `update_errs(x, u, prev_z)`: recompute `err_z = z − pred_z` (via
`forward`) and `err_x = x − Wout·nonlin(z)` at the current `z`. -/
def update_errs (s : TemporalPC nc nh no K) (x : Fin no → K) (u : Fin nc → K)
    (prev_z : Fin nh → K) : (Fin nh → K) × (Fin no → K) :=
  let pred_z := (s.forward u prev_z).1
  let pred_x := s.Wout.mulVec fun i => s.nonlin.val (s.z i)
  (s.z - pred_z, x - pred_x)

/-- `update_nodes(x, u, prev_z, inf_lr, update_x)`: descend `z` along
`delta_z = err_z − nonlin'(z) ⊙ (err_x·Wout)`, and, when `update_x` is set,
also descend the observation `x` itself by `delta_x = err_x` (the code
mutates the caller's tensor in place; here the updated `x` is returned). -/
def update_nodes (s : TemporalPC nc nh no K) (x : Fin no → K) (u : Fin nc → K)
    (prev_z : Fin nh → K) (inf_lr : K) (update_x : Bool) :
    TemporalPC nc nh no K × (Fin no → K) :=
  let e := s.update_errs x u prev_z
  let delta_z := e.1 - fun i => s.nonlin.deriv (s.z i) * Matrix.vecMul e.2 s.Wout i
  ({ s with z := s.z - inf_lr • delta_z },
    if update_x then x - inf_lr • e.2 else x)

/-- `inference(inf_iters, inf_lr, x, u, prev_z, update_x)`: initialize `z`
by a `forward` pass, then iterate `update_nodes`, threading the (possibly
refined) observation through the loop. -/
def inference (s : TemporalPC nc nh no K) (inf_iters : ℕ) (inf_lr : K)
    (x : Fin no → K) (u : Fin nc → K) (prev_z : Fin nh → K)
    (update_x : Bool) : TemporalPC nc nh no K × (Fin no → K) :=
  (fun q : TemporalPC nc nh no K × (Fin no → K) =>
      q.1.update_nodes q.2 u prev_z inf_lr update_x)^[inf_iters]
    ({ s with z := (s.forward u prev_z).1 }, x)

/-- `update_grads(x, u, prev_z)`: recompute the errors at the current `z`,
store the two squared-error sums and return their total as the scalar
energy. -/
def update_grads (s : TemporalPC nc nh no K) (x : Fin no → K) (u : Fin nc → K)
    (prev_z : Fin nh → K) : TemporalPC nc nh no K × K :=
  let e := s.update_errs x u prev_z
  let hidden_loss := ∑ i, e.1 i ^ 2
  let obs_loss := ∑ j, e.2 j ^ 2
  ({ s with hidden_loss := some hidden_loss, obs_loss := some obs_loss },
    hidden_loss + obs_loss)

/-- Claim C7: `update_grads` returns exactly the sum of squared entries of
`ez = z − (Win·nonlin(u) + Wr·nonlin(prev_z))` plus the sum of squared
entries of `ex = x − Wout·nonlin(z)`, and leaves all three weight matrices
untouched. -/
theorem update_grads_energy (s : TemporalPC nc nh no K) (x : Fin no → K)
    (u : Fin nc → K) (prev_z : Fin nh → K) :
    (s.update_grads x u prev_z).2 =
      (∑ i, (s.z i - (s.Win.mulVec (fun k => s.nonlin.val (u k)) +
        s.Wr.mulVec fun k => s.nonlin.val (prev_z k)) i) ^ 2) +
      (∑ j, (x j - s.Wout.mulVec (fun k => s.nonlin.val (s.z k)) j) ^ 2) ∧
    (s.update_grads x u prev_z).1.Win = s.Win ∧
    (s.update_grads x u prev_z).1.Wr = s.Wr ∧
    (s.update_grads x u prev_z).1.Wout = s.Wout :=
  ⟨rfl, rfl, rfl, rfl⟩

/-- Claim C10: with `update_x = true`, each inner iteration of `inference`
replaces the observation by `x − inf_lr·ex` with
`ex = x − Wout·nonlin(z)` the current observation error (in the code this
is an in-place mutation of the caller's tensor, modelled here by the
observation component threaded through the iteration); with
`update_x = false` (the default), the observation comes back unchanged
after any number of iterations. -/
theorem inference_update_x (s : TemporalPC nc nh no K) (inf_iters : ℕ)
    (inf_lr : K) (x : Fin no → K) (u : Fin nc → K) (prev_z : Fin nh → K) :
    (∀ (q : TemporalPC nc nh no K × (Fin no → K)),
      (q.1.update_nodes q.2 u prev_z inf_lr true).2 =
        q.2 - inf_lr • (q.2 - q.1.Wout.mulVec fun i => q.1.nonlin.val (q.1.z i))) ∧
    (s.inference inf_iters inf_lr x u prev_z false).2 = x := by
  constructor
  · intro q
    rfl
  · have hiter : ∀ (k : ℕ) (q : TemporalPC nc nh no K × (Fin no → K)),
        ((fun q : TemporalPC nc nh no K × (Fin no → K) =>
          q.1.update_nodes q.2 u prev_z inf_lr false)^[k] q).2 = q.2 := by
      intro k
      induction k with
      | zero => intro q; rfl
      | succ j ih =>
        intro q
        rw [Function.iterate_succ_apply]
        exact ih _
    exact hiter inf_iters _

end TemporalPC

/-! ## Constructors (string dispatch of the nonlinearity) -/

/-- The construction-time data of a `NeuralKalmanFilter`: the cloned weight
matrices, the `dynamic_inf` flag and the resolved nonlinearity tag. -/
structure NKFConfig (n m p : ℕ) where
  Wr : Matrix (Fin n) (Fin n) ℚ
  Win : Matrix (Fin n) (Fin m) ℚ
  Wout : Matrix (Fin p) (Fin n) ℚ
  dynamic_inf : Bool
  nonlin : NonlinTag

/-- `NeuralKalmanFilter.__init__(A, B, C, latent_size, dynamic_inf,
nonlin)`: stores the weights and dispatches on the nonlinearity name,
raising `ValueError` (here `Except.error`) for an unrecognized name before
any inference can be attempted. -/
def NeuralKalmanFilter.construct {n m p : ℕ} (A : Matrix (Fin n) (Fin n) ℚ)
    (B : Matrix (Fin n) (Fin m) ℚ) (C : Matrix (Fin p) (Fin n) ℚ)
    (dynamic_inf : Bool) (nonlin : String) : Except String (NKFConfig n m p) :=
  (mkNonlin nonlin).map fun tag => ⟨A, B, C, dynamic_inf, tag⟩

/-- `TemporalPC.__init__(control_size, hidden_size, output_size, nonlin)`:
the same dispatch; the weights themselves are freshly (randomly)
initialized `nn.Linear` maps, so only the resolved tag is construction
data here. -/
def TemporalPC.construct (control_size hidden_size output_size : ℕ)
    (nonlin : String) : Except String NonlinTag :=
  mkNonlin nonlin

/-- Claim C9: an unrecognized nonlinearity name (anything other than
`"linear"` and `"tanh"`) makes both solver constructors fail with the
configuration error, at construction time. -/
theorem construct_rejects_unknown_nonlin (name : String)
    (h1 : name ≠ "linear") (h2 : name ≠ "tanh") :
    (∀ (n m p : ℕ) (A : Matrix (Fin n) (Fin n) ℚ) (B : Matrix (Fin n) (Fin m) ℚ)
      (C : Matrix (Fin p) (Fin n) ℚ) (dyn : Bool),
      NeuralKalmanFilter.construct A B C dyn name =
        Except.error "no such nonlinearity!") ∧
    (∀ control_size hidden_size output_size : ℕ,
      TemporalPC.construct control_size hidden_size output_size name =
        Except.error "no such nonlinearity!") := by
  constructor
  · intro n m p A B C dyn
    simp [NeuralKalmanFilter.construct, mkNonlin, h1, h2, Except.map]
  · intro cs hs os
    simp [TemporalPC.construct, mkNonlin, h1, h2]

/-! ## Energy descent of the differentiable solver's inner iteration -/

/-- The nonlinearity strategy (over `ℝ`) selected by each dispatch tag. -/
noncomputable def NonlinTag.toStrategyR : NonlinTag → NonlinStrategy ℝ
  | NonlinTag.linear => LinearNL ℝ
  | NonlinTag.tanh => TanhNL

theorem tanh_hasDerivAt (t : ℝ) :
    HasDerivAt Real.tanh (1 - Real.tanh t ^ 2) t := by
  have hc : Real.cosh t ≠ 0 := (Real.cosh_pos t).ne'
  have h := (Real.hasDerivAt_sinh t).div (Real.hasDerivAt_cosh t) hc
  have hfun : (fun x => Real.sinh x / Real.cosh x) = Real.tanh :=
    funext fun x => (Real.tanh_eq_sinh_div_cosh x).symm
  rw [hfun] at h
  convert h using 1
  rw [Real.tanh_eq_sinh_div_cosh]
  field_simp
  have := Real.cosh_sq_sub_sinh_sq t
  nlinarith [this]

/-- Both built-in nonlinearities report the true derivative of their value
function. -/
theorem NonlinTag.strategyR_hasDerivAt (tag : NonlinTag) (t : ℝ) :
    HasDerivAt tag.toStrategyR.val (tag.toStrategyR.deriv t) t := by
  cases tag with
  | linear => simpa [NonlinTag.toStrategyR, LinearNL] using hasDerivAt_id t
  | tanh => simpa [NonlinTag.toStrategyR, TanhNL] using tanh_hasDerivAt t

/-- A real function with a negative derivative at `0` takes a value
strictly below `f 0` at some positive argument. -/
theorem exists_pos_lt_of_hasDerivAt_neg {f : ℝ → ℝ} {a : ℝ}
    (hf : HasDerivAt f a 0) (ha : a < 0) : ∃ t : ℝ, 0 < t ∧ f t < f 0 := by
  have hslope := hasDerivAt_iff_tendsto_slope.mp hf
  have hev : ∀ᶠ t in nhdsWithin 0 {(0 : ℝ)}ᶜ, slope f 0 t < 0 :=
    hslope.eventually_lt_const ha
  have hsub : nhdsWithin (0 : ℝ) (Set.Ioi 0) ≤ nhdsWithin 0 {(0 : ℝ)}ᶜ :=
    nhdsWithin_mono 0 fun t ht => Set.mem_compl_singleton_iff.mpr (ne_of_gt ht)
  have hev2 : ∀ᶠ t in nhdsWithin (0 : ℝ) (Set.Ioi 0), slope f 0 t < 0 :=
    hev.filter_mono hsub
  have hmem : ∀ᶠ t in nhdsWithin (0 : ℝ) (Set.Ioi 0), t ∈ Set.Ioi (0 : ℝ) :=
    eventually_mem_nhdsWithin
  obtain ⟨t, hts, htpos⟩ := (hev2.and hmem).exists
  refine ⟨t, htpos, ?_⟩
  rw [slope_def_field] at hts
  have h3 : (f t - f 0) / t < 0 := by simpa using hts
  rcases div_neg_iff.mp h3 with ⟨-, hden⟩ | ⟨hnum, -⟩
  · exact absurd htpos (not_lt.mpr hden.le)
  · linarith

/-- Coordinate form of the energy-descent step: moving `z` against the
`delta_z` direction of `TemporalPC.update_nodes` cannot increase the
energy, for a small enough positive step.  `pz` is the (z-independent)
latent prediction, `W` the emission weight, `d` the update direction. -/
theorem descent_core {nh no : ℕ} (nl : NonlinStrategy ℝ)
    (hderiv : ∀ t, HasDerivAt nl.val (nl.deriv t) t)
    (pz z : Fin nh → ℝ) (W : Matrix (Fin no) (Fin nh) ℝ) (x : Fin no → ℝ)
    (d : Fin nh → ℝ)
    (hd : ∀ i, d i = (z i - pz i) -
      nl.deriv (z i) * ∑ j, (x j - ∑ k, W j k * nl.val (z k)) * W j i) :
    ∃ lr : ℝ, 0 < lr ∧
      ((∑ i, (z i - lr * d i - pz i) ^ 2) +
        ∑ j, (x j - ∑ i, W j i * nl.val (z i - lr * d i)) ^ 2) ≤
      (∑ i, (z i - pz i) ^ 2) + ∑ j, (x j - ∑ i, W j i * nl.val (z i)) ^ 2 := by
  by_cases hzero : ∀ i, d i = 0
  · refine ⟨1, one_pos, ?_⟩
    have hz1 : ∀ i, z i - 1 * d i = z i := fun i => by rw [hzero i]; ring
    simp only [hz1, le_refl]
  · push_neg at hzero
    have hsum_pos : 0 < ∑ i, d i ^ 2 := by
      obtain ⟨i0, hi0⟩ := hzero
      exact Finset.sum_pos' (fun i _ => sq_nonneg _)
        ⟨i0, Finset.mem_univ i0, by positivity⟩
    have hgi : ∀ i : Fin nh, HasDerivAt (fun lr : ℝ => z i - lr * d i) (-(d i)) 0 :=
      fun i => (hasDerivAt_mul_const (d i)).const_sub (z i)
    have hv : ∀ i : Fin nh, HasDerivAt (fun lr : ℝ => nl.val (z i - lr * d i))
        (nl.deriv (z i) * -(d i)) 0 := by
      intro i
      have h1 : HasDerivAt nl.val (nl.deriv (z i))
          ((fun lr : ℝ => z i - lr * d i) 0) := by
        simpa using hderiv (z i)
      exact h1.comp 0 (hgi i)
    have hsum1 : HasDerivAt (fun lr : ℝ => ∑ i, (z i - lr * d i - pz i) ^ 2)
        (∑ i, 2 * (z i - pz i) * -(d i)) 0 := by
      refine HasDerivAt.sum fun i _ => ?_
      have h := ((hgi i).sub_const (pz i)).pow 2
      convert h using 1
      simp
    have hsum2 : HasDerivAt
        (fun lr : ℝ => ∑ j, (x j - ∑ i, W j i * nl.val (z i - lr * d i)) ^ 2)
        (∑ j, 2 * (x j - ∑ i, W j i * nl.val (z i)) *
          -(∑ i, W j i * (nl.deriv (z i) * -(d i)))) 0 := by
      refine HasDerivAt.sum fun j _ => ?_
      have hin : HasDerivAt (fun lr : ℝ => ∑ i, W j i * nl.val (z i - lr * d i))
          (∑ i, W j i * (nl.deriv (z i) * -(d i))) 0 :=
        HasDerivAt.sum fun i _ => (hv i).const_mul (W j i)
      have h := (hin.const_sub (x j)).pow 2
      convert h using 1
      simp
    have hD : (∑ i, 2 * (z i - pz i) * -(d i)) +
        (∑ j, 2 * (x j - ∑ i, W j i * nl.val (z i)) *
          -(∑ i, W j i * (nl.deriv (z i) * -(d i)))) = -2 * ∑ i, d i ^ 2 := by
      have hB : ∀ j, 2 * (x j - ∑ i, W j i * nl.val (z i)) *
          -(∑ i, W j i * (nl.deriv (z i) * -(d i))) =
          ∑ i, 2 * (x j - ∑ k, W j k * nl.val (z k)) *
            (W j i * (nl.deriv (z i) * d i)) := by
        intro j
        rw [← Finset.sum_neg_distrib, Finset.mul_sum]
        exact Finset.sum_congr rfl fun i _ => by ring
      rw [Finset.sum_congr rfl fun j _ => hB j, Finset.sum_comm,
        ← Finset.sum_add_distrib, Finset.mul_sum]
      refine Finset.sum_congr rfl fun i _ => ?_
      have hswap : (∑ j, 2 * (x j - ∑ k, W j k * nl.val (z k)) *
          (W j i * (nl.deriv (z i) * d i))) =
          2 * (nl.deriv (z i) * d i) *
            ∑ j, (x j - ∑ k, W j k * nl.val (z k)) * W j i := by
        rw [Finset.mul_sum]
        exact Finset.sum_congr rfl fun j _ => by ring
      rw [hswap]
      linear_combination (2 * d i) * hd i
    have hφ : HasDerivAt (fun lr : ℝ =>
        (∑ i, (z i - lr * d i - pz i) ^ 2) +
        ∑ j, (x j - ∑ i, W j i * nl.val (z i - lr * d i)) ^ 2)
        (-2 * ∑ i, d i ^ 2) 0 := hD ▸ hsum1.add hsum2
    have hneg : -2 * ∑ i, d i ^ 2 < 0 := by nlinarith
    obtain ⟨lr, hlr, hlt⟩ := exists_pos_lt_of_hasDerivAt_neg hφ hneg
    refine ⟨lr, hlr, le_of_lt ?_⟩
    simpa using hlt

/-- Claim C5: for the differentiable solver, for any fixed `x`, `u`,
`prev_z` and current `z`, and either built-in nonlinearity, there is a
small enough positive `inf_lr` for which a single `update_nodes` step does
not increase the energy (the sum of squared `ez` and `ex` computed by
`update_grads`). -/
theorem tpc_update_nodes_energy_descent {nc nh no : ℕ} (tag : NonlinTag)
    (Win : Matrix (Fin nh) (Fin nc) ℝ) (Wr : Matrix (Fin nh) (Fin nh) ℝ)
    (Wout : Matrix (Fin no) (Fin nh) ℝ) (hl ol : Option ℝ)
    (z : Fin nh → ℝ) (x : Fin no → ℝ) (u : Fin nc → ℝ) (prev_z : Fin nh → ℝ) :
    ∃ inf_lr : ℝ, 0 < inf_lr ∧
      ((((TemporalPC.mk Win Wr Wout tag.toStrategyR hl ol z).update_nodes
          x u prev_z inf_lr false).1.update_grads x u prev_z).2 ≤
       ((TemporalPC.mk Win Wr Wout tag.toStrategyR hl ol z).update_grads
          x u prev_z).2) := by
  obtain ⟨lr, hlr, hle⟩ := descent_core tag.toStrategyR
    (tag.strategyR_hasDerivAt)
    (fun i => Matrix.mulVec Win (fun k => tag.toStrategyR.val (u k)) i +
      Matrix.mulVec Wr (fun k => tag.toStrategyR.val (prev_z k)) i)
    z Wout x
    (fun i => (z i - (Matrix.mulVec Win (fun k => tag.toStrategyR.val (u k)) i +
        Matrix.mulVec Wr (fun k => tag.toStrategyR.val (prev_z k)) i)) -
      tag.toStrategyR.deriv (z i) *
        ∑ j, (x j - ∑ k, Wout j k * tag.toStrategyR.val (z k)) * Wout j i)
    (fun i => rfl)
  exact ⟨lr, hlr, hle⟩

/-- Witness for claim C9 at the concrete name `"relu"`. -/
theorem construct_rejects_unknown_nonlin_witness :
    NeuralKalmanFilter.construct (0 : Matrix (Fin 1) (Fin 1) ℚ)
      (0 : Matrix (Fin 1) (Fin 1) ℚ) (0 : Matrix (Fin 1) (Fin 1) ℚ) false "relu" =
      Except.error "no such nonlinearity!" ∧
    TemporalPC.construct 1 1 1 "relu" = Except.error "no such nonlinearity!" :=
  ⟨(construct_rejects_unknown_nonlin "relu" (by decide) (by decide)).1 1 1 1 0 0 0 false,
   (construct_rejects_unknown_nonlin "relu" (by decide) (by decide)).2 1 1 1⟩

end Models
